import Mathlib

/-!
Shallow embedding of the solana-fib-cpi program (src/src/lib.rs): a resumable
Fibonacci computation that stores its state in a 25-byte PDA record and
advances one step per invocation, continuing via self-CPI up to the platform
nesting ceiling.  Machine integers are modelled as `Nat` with explicit
`2 ^ 64` bounds; fallible paths return `Except`/`Option`.
-/

namespace FibCpi

/-- Size in bytes of the persisted record: a(8) + b(8) + n(8) + bump(1).
From `const DATA_LEN: u64 = 25`. -/
def DATA_LEN : Nat := 25

/-- From `const fn rent_minimum`: `(128 + data_len) * 3_480 * 2` in u64
arithmetic. -/
def rent_minimum (data_len : Nat) : Nat :=
  ((128 + data_len) * 3480 * 2) % 2 ^ 64

/-- u64 `checked_add`: the sum when it fits in 64 bits, `none` on overflow. -/
def checked_add (a b : Nat) : Option Nat :=
  if a + b < 2 ^ 64 then some (a + b) else none

/-- Little-endian encoding of a natural number into `w` bytes
(`u64::to_le_bytes` is `leBytes 8`). -/
def leBytes : Nat → Nat → List Nat
  | 0, _ => []
  | w + 1, x => x % 256 :: leBytes w (x / 256)

/-- Little-endian decoding of a byte list (`u64::from_le_bytes` on 8 bytes). -/
def leDecode : List Nat → Nat
  | [] => 0
  | b :: bs => b + 256 * leDecode bs

/-- The persisted computation state: previous value `a`, current value `b`,
steps left `remaining`, and the PDA `bump` byte. -/
structure FibState where
  a : Nat
  b : Nat
  remaining : Nat
  bump : Nat
deriving DecidableEq, Repr

/-- The fields fit their machine widths (three u64 and one u8). -/
def ValidState (s : FibState) : Prop :=
  s.a < 2 ^ 64 ∧ s.b < 2 ^ 64 ∧ s.remaining < 2 ^ 64 ∧ s.bump < 256

instance (s : FibState) : Decidable (ValidState s) := by
  unfold ValidState; infer_instance

/-- State Codec, encode direction: the fixed little-endian layout written by
the program — bytes [0:8) = a, [8:16) = b, [16:24) = remaining,
[24] = bump. -/
def encodeState (s : FibState) : List Nat :=
  leBytes 8 s.a ++ leBytes 8 s.b ++ leBytes 8 s.remaining ++ [s.bump]

/-- State Codec, decode direction: succeeds exactly on length-25 slices,
reading the same fixed layout the program reads. -/
def decodeState (bs : List Nat) : Option FibState :=
  if bs.length = 25 then
    some ⟨leDecode (bs.take 8), leDecode ((bs.drop 8).take 8),
          leDecode ((bs.drop 16).take 8), bs.getD 24 0⟩
  else none

/-- Result of one step of the Step Engine. -/
inductive StepResult where
  | Continue (s : FibState)
  | Done (result : Nat)
deriving DecidableEq, Repr

/-- Step Engine (the `else` branch of `process_instruction`): terminal when
`remaining = 0`, otherwise shift the pair and decrement, with checked
addition (`none` models the fatal overflow panic). -/
def step (s : FibState) : Option StepResult :=
  if s.remaining = 0 then some (.Done s.b)
  else
    match checked_add s.a s.b with
    | none => none
    | some nb => some (.Continue ⟨s.b, nb, s.remaining - 1, s.bump⟩)

/-- Iterate the Step Engine until it reports `Done`, with explicit fuel
(`remaining` decreases by one per step, so fuel `s.remaining` suffices).
`none` models a fatal overflow abort. -/
def runAux : Nat → FibState → Option FibState
  | 0, s => if s.remaining = 0 then some s else none
  | fuel + 1, s =>
    match step s with
    | none => none
    | some (.Done _) => some s
    | some (.Continue t) => runAux fuel t

/-- Run the Step Engine from `s` until `remaining = 0` (fuel `s.remaining`
is exact). -/
def runEngine (s : FibState) : Option FibState :=
  runAux s.remaining s

/-- One invocation's inputs, as `process_instruction` observes them: the
payload bytes, whether the payer signed, whether the third account is the
system program, the caller-supplied PDA key, the pair returned by
`find_program_address` for `(SEED, payer)`, and the PDA account's current
data (empty list = `data_is_empty`). Pubkeys are abstract `Nat`s. -/
structure Invocation where
  payload : List Nat
  payerIsSigner : Bool
  systemKeyOk : Bool
  pdaKey : Nat
  expectedPda : Nat
  expectedBump : Nat
  pdaData : List Nat
deriving DecidableEq, Repr

/-- Failure modes of one invocation: the three init-branch asserts, the PDA
mismatch assert, an out-of-range data slice (panic), the overflow `expect`,
and the platform rejecting a CPI beyond the nesting ceiling. -/
inductive ProgError where
  | needN
  | payerNotSigner
  | badSystemProgram
  | wrongPda
  | sliceOutOfRange
  | overflow
  | depthExceeded
deriving DecidableEq, Repr

/-- Observable effects of one successful invocation: the PDA data afterwards,
whether a CreateAccount CPI was issued, whether the record was written,
whether a self-CPI continuation was requested, and the final value logged by
a `done:` message (if any). -/
structure Effects where
  newData : List Nat
  allocated : Bool
  wrote : Bool
  selfCpi : Bool
  reported : Option Nat
deriving DecidableEq, Repr

/-- The entry point `process_instruction`, minus the CPIs themselves: the
init branch (PDA data empty) validates, allocates, writes the initial state
and requests a continuation iff `n > 0`; the resume branch loads the state,
stops at `remaining = 0`, otherwise advances one step with checked addition
and requests a continuation iff the decremented count is still positive.
An `Except.error` models a panic/`Err`, which aborts with nothing
committed. -/
def process_instruction (inv : Invocation) : Except ProgError Effects :=
  if inv.pdaData.isEmpty then
    if inv.payload.length < 8 then .error .needN
    else if !inv.payerIsSigner then .error .payerNotSigner
    else if !inv.systemKeyOk then .error .badSystemProgram
    else
      let n := leDecode (inv.payload.take 8)
      if inv.pdaKey ≠ inv.expectedPda then .error .wrongPda
      else
        .ok { newData := encodeState ⟨0, 1, n, inv.expectedBump⟩,
              allocated := true, wrote := true,
              selfCpi := decide (0 < n), reported := none }
  else
    if inv.pdaData.length < 24 then .error .sliceOutOfRange
    else
      let a := leDecode (inv.pdaData.take 8)
      let b := leDecode ((inv.pdaData.drop 8).take 8)
      let n := leDecode ((inv.pdaData.drop 16).take 8)
      if n = 0 then
        .ok { newData := inv.pdaData, allocated := false, wrote := false,
              selfCpi := false, reported := some b }
      else
        match checked_add a b with
        | none => .error .overflow
        | some newB =>
          .ok { newData := leBytes 8 b ++ leBytes 8 newB ++
                  leBytes 8 (n - 1) ++ inv.pdaData.drop 24,
                allocated := false, wrote := true,
                selfCpi := decide (0 < n - 1),
                reported := if n - 1 = 0 then some newB else none }

/-- A resume invocation carrying the given PDA data: empty payload, same
accounts as the self-CPI built by `self_cpi` (payer marked signer, system
program correct). -/
def resumeInv (data : List Nat) : Invocation :=
  { payload := [], payerIsSigner := true, systemKeyOk := true,
    pdaKey := 0, expectedPda := 0, expectedBump := 0, pdaData := data }

/-- Modelled from the spec: the platform's invoke-stack ceiling of 5 — the
maximum nesting depth of invocations — is enforced by the Solana runtime,
not by code in this repository (the source only notes it in a comment on
`self_cpi`). -/
def MAX_STACK_HEIGHT : Nat := 5

/-- Modelled from the spec: the platform rejecting a CPI that would exceed
the nesting ceiling. `allow` is how many further nesting levels remain below
`MAX_STACK_HEIGHT`; each resume invocation that requests a self-CPI consumes
one, and a request with none left fails the whole chain. -/
def resumeChain (allow : Nat) (data : List Nat) : Except ProgError (List Nat) :=
  match process_instruction (resumeInv data) with
  | .error e => .error e
  | .ok eff =>
    if eff.selfCpi then
      match allow with
      | 0 => .error .depthExceeded
      | a + 1 => resumeChain a eff.newData
    else .ok eff.newData

/-- An init invocation as the integration tests build it: payload holding the
little-endian step count `n`, payer signing, correct system program, the PDA
key equal to the derived one, PDA data absent. -/
def initInv (n bump : Nat) : Invocation :=
  { payload := leBytes 8 n, payerIsSigner := true, systemKeyOk := true,
    pdaKey := 0, expectedPda := 0, expectedBump := bump, pdaData := [] }

/-- A whole initiating transaction for step count `n`: the init invocation
runs at stack height 1 and its self-CPI (if any) enters the resume chain at
height 2, which may nest `MAX_STACK_HEIGHT - 2 = 3` further levels. Any
error aborts the whole transaction with nothing persisted. -/
def initTx (n bump : Nat) : Except ProgError (List Nat) :=
  match process_instruction (initInv n bump) with
  | .error e => .error e
  | .ok eff =>
    if eff.selfCpi then resumeChain (MAX_STACK_HEIGHT - 2) eff.newData
    else .ok eff.newData

/-- The byte payload built by `create_account_ix`: opcode 0 for CreateAccount
(u32 little-endian), lamports (u64 little-endian), space (u64 little-endian),
then the 32-byte owner key. -/
def create_account_ix_data (lamports space : Nat) (owner : List Nat) : List Nat :=
  leBytes 4 0 ++ leBytes 8 lamports ++ leBytes 8 space ++ owner

/-! ### Codec lemmas -/

theorem leBytes_length (w x : Nat) : (leBytes w x).length = w := by
  induction w generalizing x with
  | zero => rfl
  | succ w ih => simp [leBytes, ih]

theorem leDecode_leBytes {w x : Nat} (h : x < 256 ^ w) :
    leDecode (leBytes w x) = x := by
  induction w generalizing x with
  | zero =>
      rw [pow_zero, Nat.lt_one_iff] at h
      simp [leBytes, leDecode, h]
  | succ w ih =>
      have hx : x / 256 < 256 ^ w := by
        rw [Nat.div_lt_iff_lt_mul (by norm_num)]
        calc x < 256 ^ (w + 1) := h
          _ = 256 ^ w * 256 := by ring
      simp only [leBytes, leDecode, ih hx]
      omega

theorem pow256_eq : (256 : Nat) ^ 8 = 2 ^ 64 := by norm_num

theorem encodeState_length (s : FibState) : (encodeState s).length = 25 := by
  simp [encodeState, leBytes_length]

theorem encodeState_take_a (s : FibState) :
    (encodeState s).take 8 = leBytes 8 s.a := by
  have h : encodeState s =
      leBytes 8 s.a ++ (leBytes 8 s.b ++ (leBytes 8 s.remaining ++ [s.bump])) := by
    simp [encodeState]
  rw [h]
  exact List.take_left' (leBytes_length 8 s.a)

theorem encodeState_drop8 (s : FibState) :
    (encodeState s).drop 8 = leBytes 8 s.b ++ (leBytes 8 s.remaining ++ [s.bump]) := by
  have h : encodeState s =
      leBytes 8 s.a ++ (leBytes 8 s.b ++ (leBytes 8 s.remaining ++ [s.bump])) := by
    simp [encodeState]
  rw [h]
  exact List.drop_left' (leBytes_length 8 s.a)

theorem encodeState_take_b (s : FibState) :
    ((encodeState s).drop 8).take 8 = leBytes 8 s.b := by
  rw [encodeState_drop8]
  exact List.take_left' (leBytes_length 8 s.b)

theorem encodeState_drop16 (s : FibState) :
    (encodeState s).drop 16 = leBytes 8 s.remaining ++ [s.bump] := by
  have h : encodeState s =
      (leBytes 8 s.a ++ leBytes 8 s.b) ++ (leBytes 8 s.remaining ++ [s.bump]) := by
    simp [encodeState]
  rw [h]
  exact List.drop_left' (by simp [leBytes_length])

theorem encodeState_take_rem (s : FibState) :
    ((encodeState s).drop 16).take 8 = leBytes 8 s.remaining := by
  rw [encodeState_drop16]
  exact List.take_left' (leBytes_length 8 s.remaining)

theorem encodeState_drop24 (s : FibState) :
    (encodeState s).drop 24 = [s.bump] := by
  have h : encodeState s =
      (leBytes 8 s.a ++ leBytes 8 s.b ++ leBytes 8 s.remaining) ++ [s.bump] := by
    simp [encodeState]
  rw [h]
  exact List.drop_left' (by simp [leBytes_length])

theorem encodeState_getD24 (s : FibState) :
    (encodeState s).getD 24 0 = s.bump := by
  have h : encodeState s =
      (leBytes 8 s.a ++ leBytes 8 s.b ++ leBytes 8 s.remaining) ++ [s.bump] := by
    simp [encodeState]
  have hlen : (leBytes 8 s.a ++ leBytes 8 s.b ++ leBytes 8 s.remaining).length = 24 := by
    simp [leBytes_length]
  rw [h, List.getD_append_right _ _ _ _ (by rw [hlen]), hlen]
  rfl

theorem decode_a (s : FibState) (h : s.a < 2 ^ 64) :
    leDecode ((encodeState s).take 8) = s.a := by
  rw [encodeState_take_a]
  exact leDecode_leBytes (pow256_eq ▸ h)

theorem decode_b (s : FibState) (h : s.b < 2 ^ 64) :
    leDecode (((encodeState s).drop 8).take 8) = s.b := by
  rw [encodeState_take_b]
  exact leDecode_leBytes (pow256_eq ▸ h)

theorem decode_rem (s : FibState) (h : s.remaining < 2 ^ 64) :
    leDecode (((encodeState s).drop 16).take 8) = s.remaining := by
  rw [encodeState_take_rem]
  exact leDecode_leBytes (pow256_eq ▸ h)

theorem decode_encode (s : FibState) (hv : ValidState s) :
    decodeState (encodeState s) = some s := by
  obtain ⟨ha, hb, hr, _⟩ := hv
  simp only [decodeState, encodeState_length, if_pos]
  rw [decode_a s ha, decode_b s hb, decode_rem s hr, encodeState_getD24]

/-! ### Branch lemmas for `process_instruction` -/

theorem encodeState_ne_nil (s : FibState) : encodeState s ≠ [] := by
  intro h
  have := encodeState_length s
  rw [h] at this
  simp at this

theorem process_init_ok (inv : Invocation) (hempty : inv.pdaData = [])
    (hlen : 8 ≤ inv.payload.length) (hs : inv.payerIsSigner = true)
    (hsys : inv.systemKeyOk = true) (hkey : inv.pdaKey = inv.expectedPda) :
    process_instruction inv =
      .ok { newData := encodeState ⟨0, 1, leDecode (inv.payload.take 8), inv.expectedBump⟩,
            allocated := true, wrote := true,
            selfCpi := decide (0 < leDecode (inv.payload.take 8)),
            reported := none } := by
  simp [process_instruction, hempty, hs, hsys, hkey, Nat.not_lt.mpr hlen]

theorem process_resume_done (inv : Invocation) (s : FibState) (hv : ValidState s)
    (h0 : s.remaining = 0) (hd : inv.pdaData = encodeState s) :
    process_instruction inv =
      .ok { newData := encodeState s, allocated := false, wrote := false,
            selfCpi := false, reported := some s.b } := by
  obtain ⟨_, hb, hr, _⟩ := hv
  have hlen : ¬ (encodeState s).length < 24 := by
    rw [encodeState_length]; omega
  simp [process_instruction, hd, encodeState_ne_nil s, hlen,
        decode_b s hb, decode_rem s hr, h0]

theorem process_resume_step (inv : Invocation) (s : FibState) (hv : ValidState s)
    (h0 : s.remaining ≠ 0) (hov : s.a + s.b < 2 ^ 64) (hd : inv.pdaData = encodeState s) :
    process_instruction inv =
      .ok { newData := encodeState ⟨s.b, s.a + s.b, s.remaining - 1, s.bump⟩,
            allocated := false, wrote := true,
            selfCpi := decide (0 < s.remaining - 1),
            reported := if s.remaining - 1 = 0 then some (s.a + s.b) else none } := by
  obtain ⟨ha, hb, hr, _⟩ := hv
  have hlen : ¬ (encodeState s).length < 24 := by
    rw [encodeState_length]; omega
  simp only [process_instruction, hd, encodeState_ne_nil s, hlen,
             decode_a s ha, decode_b s hb, decode_rem s hr, h0,
             checked_add, if_pos hov, List.isEmpty_iff, if_neg, if_false,
             ite_false, encodeState_drop24]
  simp [encodeState, h0]

theorem process_resume_overflow (inv : Invocation) (s : FibState) (hv : ValidState s)
    (h0 : s.remaining ≠ 0) (hov : 2 ^ 64 ≤ s.a + s.b) (hd : inv.pdaData = encodeState s) :
    process_instruction inv = .error .overflow := by
  obtain ⟨ha, hb, hr, _⟩ := hv
  have hlen : ¬ (encodeState s).length < 24 := by
    rw [encodeState_length]; omega
  have hca : checked_add s.a s.b = none := by
    simp only [checked_add, if_neg (Nat.not_lt.mpr hov)]
  simp [process_instruction, hd, encodeState_ne_nil s, hlen,
        decode_a s ha, decode_b s hb, decode_rem s hr, h0, hca]

/-! ### Step Engine lemmas -/

theorem step_done (s : FibState) (h : s.remaining = 0) :
    step s = some (.Done s.b) := by
  simp [step, h]

theorem step_continue (s : FibState) (h0 : s.remaining ≠ 0) (hov : s.a + s.b < 2 ^ 64) :
    step s = some (.Continue ⟨s.b, s.a + s.b, s.remaining - 1, s.bump⟩) := by
  have hca : checked_add s.a s.b = some (s.a + s.b) := by
    simp only [checked_add, if_pos hov]
  simp [step, h0, hca]

theorem step_overflow_none (s : FibState) (h0 : s.remaining ≠ 0)
    (hov : 2 ^ 64 ≤ s.a + s.b) : step s = none := by
  have hca : checked_add s.a s.b = none := by
    simp only [checked_add, if_neg (Nat.not_lt.mpr hov)]
  simp [step, h0, hca]

theorem runAux_fib : ∀ (m k bump : Nat), Nat.fib (k + m + 1) < 2 ^ 64 →
    runAux m ⟨Nat.fib k, Nat.fib (k + 1), m, bump⟩ =
      some ⟨Nat.fib (k + m), Nat.fib (k + m + 1), 0, bump⟩ := by
  intro m
  induction m with
  | zero => intro k bump _; simp [runAux]
  | succ m ih =>
      intro k bump h
      have hidx : k + 1 + m + 1 = k + (m + 1) + 1 := by omega
      have hsum : Nat.fib k + Nat.fib (k + 1) = Nat.fib (k + 2) := Nat.fib_add_two.symm
      have hlt : Nat.fib k + Nat.fib (k + 1) < 2 ^ 64 := by
        rw [hsum]
        exact lt_of_le_of_lt (Nat.fib_mono (by omega)) h
      have hst : step ⟨Nat.fib k, Nat.fib (k + 1), m + 1, bump⟩ =
          some (.Continue ⟨Nat.fib (k + 1), Nat.fib k + Nat.fib (k + 1), m, bump⟩) := by
        have hs := step_continue ⟨Nat.fib k, Nat.fib (k + 1), m + 1, bump⟩
          (Nat.succ_ne_zero m) hlt
        simpa using hs
      have hrec := ih (k + 1) bump (by rw [hidx]; exact h)
      rw [show k + 1 + m = k + (m + 1) from by omega] at hrec
      simp only [runAux, hst]
      rw [hsum]
      exact hrec

theorem runEngine_fib (n bump : Nat) (h : Nat.fib (n + 1) < 2 ^ 64) :
    runEngine ⟨0, 1, n, bump⟩ = some ⟨Nat.fib n, Nat.fib (n + 1), 0, bump⟩ := by
  have hz := runAux_fib n 0 bump (by simpa using h)
  simpa [runEngine, Nat.fib_zero, Nat.fib_one] using hz

/-! ### Resume-chain lemmas -/

theorem validState_fib (k m bump : Nat) (hm : m < 2 ^ 64) (hb : bump < 256)
    (h : Nat.fib (k + 1) < 2 ^ 64) :
    ValidState ⟨Nat.fib k, Nat.fib (k + 1), m, bump⟩ :=
  ⟨lt_of_le_of_lt (Nat.fib_mono (by omega)) h, h, hm, hb⟩

theorem resumeChain_fib : ∀ (m allow k bump : Nat), m ≤ allow + 1 → m < 2 ^ 64 →
    bump < 256 → Nat.fib (k + m + 1) < 2 ^ 64 →
    resumeChain allow (encodeState ⟨Nat.fib k, Nat.fib (k + 1), m, bump⟩) =
      .ok (encodeState ⟨Nat.fib (k + m), Nat.fib (k + m + 1), 0, bump⟩) := by
  intro m
  induction m with
  | zero =>
      intro allow k bump _ _ hb h
      have hv : ValidState ⟨Nat.fib k, Nat.fib (k + 1), 0, bump⟩ :=
        validState_fib k 0 bump (by norm_num) hb
          (lt_of_le_of_lt (Nat.fib_mono (by omega)) h)
      rw [resumeChain, process_resume_done _ _ hv rfl rfl]
      simp
  | succ m ih =>
      intro allow k bump hallow hm hb h
      have hfib1 : Nat.fib (k + 1) < 2 ^ 64 :=
        lt_of_le_of_lt (Nat.fib_mono (by omega)) h
      have hv : ValidState ⟨Nat.fib k, Nat.fib (k + 1), m + 1, bump⟩ :=
        validState_fib k (m + 1) bump hm hb hfib1
      have hsum : Nat.fib k + Nat.fib (k + 1) = Nat.fib (k + 2) := Nat.fib_add_two.symm
      have hlt : Nat.fib k + Nat.fib (k + 1) < 2 ^ 64 := by
        rw [hsum]
        exact lt_of_le_of_lt (Nat.fib_mono (by omega)) h
      rw [resumeChain, process_resume_step _ _ hv (Nat.succ_ne_zero m) hlt rfl]
      simp only [Nat.add_sub_cancel, hsum]
      by_cases hm0 : m = 0
      · subst hm0
        simp
      · have hcpi : decide (0 < m) = true := by simp [Nat.pos_of_ne_zero hm0]
        simp only [hcpi, if_true]
        cases allow with
        | zero => omega
        | succ a =>
            have hrec := ih a (k + 1) bump (by omega) (by omega) hb
              (by rw [show k + 1 + m + 1 = k + (m + 1) + 1 from by omega]; exact h)
            rw [show k + 1 + m = k + (m + 1) from by omega] at hrec
            exact hrec

theorem resumeChain_depth : ∀ (allow k m bump : Nat), allow + 1 < m → m < 2 ^ 64 →
    bump < 256 → Nat.fib (k + allow + 2) < 2 ^ 64 →
    resumeChain allow (encodeState ⟨Nat.fib k, Nat.fib (k + 1), m, bump⟩) =
      .error .depthExceeded := by
  intro allow
  induction allow with
  | zero =>
      intro k m bump hmore hm hb h
      have hfib1 : Nat.fib (k + 1) < 2 ^ 64 :=
        lt_of_le_of_lt (Nat.fib_mono (by omega)) h
      have hv : ValidState ⟨Nat.fib k, Nat.fib (k + 1), m, bump⟩ :=
        validState_fib k m bump hm hb hfib1
      have hsum : Nat.fib k + Nat.fib (k + 1) = Nat.fib (k + 2) := Nat.fib_add_two.symm
      have hlt : Nat.fib k + Nat.fib (k + 1) < 2 ^ 64 := by
        rw [hsum]
        exact lt_of_le_of_lt (Nat.fib_mono (by omega)) h
      rw [resumeChain, process_resume_step _ _ hv (show m ≠ 0 by omega) hlt rfl]
      have hcpi : decide (0 < m - 1) = true := by simp; omega
      simp only [hcpi, if_true]
  | succ a ih =>
      intro k m bump hmore hm hb h
      have hfib1 : Nat.fib (k + 1) < 2 ^ 64 :=
        lt_of_le_of_lt (Nat.fib_mono (by omega)) h
      have hv : ValidState ⟨Nat.fib k, Nat.fib (k + 1), m, bump⟩ :=
        validState_fib k m bump hm hb hfib1
      have hsum : Nat.fib k + Nat.fib (k + 1) = Nat.fib (k + 2) := Nat.fib_add_two.symm
      have hlt : Nat.fib k + Nat.fib (k + 1) < 2 ^ 64 := by
        rw [hsum]
        exact lt_of_le_of_lt (Nat.fib_mono (by omega)) h
      rw [resumeChain, process_resume_step _ _ hv (show m ≠ 0 by omega) hlt rfl]
      have hcpi : decide (0 < m - 1) = true := by simp; omega
      simp only [hcpi, if_true, hsum]
      have hrec := ih (k + 1) (m - 1) bump (by omega) (by omega) hb
        (by rw [show k + 1 + a + 2 = k + (a + 1) + 2 from by omega]; exact h)
      rw [show Nat.fib (k + 2) = Nat.fib (k + 1 + 1) from rfl]
      exact hrec

theorem payload_decode (n : Nat) (hn : n < 2 ^ 64) :
    leDecode ((leBytes 8 n).take 8) = n := by
  rw [List.take_of_length_le (by rw [leBytes_length])]
  exact leDecode_leBytes (pow256_eq ▸ hn)

theorem process_init_initInv (n bump : Nat) (hn : n < 2 ^ 64) :
    process_instruction (initInv n bump) =
      .ok { newData := encodeState ⟨0, 1, n, bump⟩, allocated := true,
            wrote := true, selfCpi := decide (0 < n), reported := none } := by
  rw [process_init_ok (initInv n bump) rfl (by simp [initInv, leBytes_length])
    rfl rfl rfl]
  simp only [initInv]
  simp only [payload_decode n hn]

/-! ### Claims -/

/-- C1 (amended): starting from `(a = 0, b = 1, remaining = n)` and applying
the Step Engine until `remaining = 0` yields `b = fib (n + 1)` under the
convention `fib 0 = 0, fib 1 = 1`, provided `fib (n + 1)` fits in a u64
(the checked addition aborts the run otherwise); in particular the final
state is `(0, 1, 0)` for `n = 0`, `(1, 1, 0)` for `n = 1`, `(2, 3, 0)` for
`n = 3` and `(3, 5, 0)` for `n = 4`. -/
theorem C1_recurrence :
    (∀ n bump : Nat, Nat.fib (n + 1) < 2 ^ 64 →
      runEngine ⟨0, 1, n, bump⟩ = some ⟨Nat.fib n, Nat.fib (n + 1), 0, bump⟩) ∧
    runEngine ⟨0, 1, 0, 0⟩ = some ⟨0, 1, 0, 0⟩ ∧
    runEngine ⟨0, 1, 1, 0⟩ = some ⟨1, 1, 0, 0⟩ ∧
    runEngine ⟨0, 1, 3, 0⟩ = some ⟨2, 3, 0, 0⟩ ∧
    runEngine ⟨0, 1, 4, 0⟩ = some ⟨3, 5, 0, 0⟩ :=
  ⟨runEngine_fib, by decide, by decide, by decide, by decide⟩

/-- C1 witness: the universally quantified part instantiated at `n = 4`,
`bump = 9`, with its hypothesis discharged concretely. -/
theorem C1_recurrence_witness :
    Nat.fib (4 + 1) < 2 ^ 64 ∧
    runEngine ⟨0, 1, 4, 9⟩ = some ⟨Nat.fib 4, Nat.fib (4 + 1), 0, 9⟩ :=
  ⟨by decide, C1_recurrence.1 4 9 (by decide)⟩

/-- C1 counterexample: for `n = 93` the checked addition overflows a u64
before `remaining` reaches 0 (`fib 94 ≥ 2 ^ 64`), so the run aborts and the
claim's universally quantified statement fails. -/
theorem C1_counterexample : runEngine ⟨0, 1, 93, 0⟩ = none := by decide

/-- C2: for all u64 values `a`, `b`, `remaining` whose sum `a + b` does not
overflow, the single-step transition reports `Done b` and changes no state
when `remaining = 0`, and otherwise produces `(b, a + b, remaining - 1)`,
with `remaining` decreasing by exactly 1 and never underflowing. -/
theorem C2_step_transition (a b rem bump : Nat)
    (ha : a < 2 ^ 64) (hb : b < 2 ^ 64) (hrem : rem < 2 ^ 64)
    (hov : a + b < 2 ^ 64) :
    (rem = 0 → step ⟨a, b, rem, bump⟩ = some (.Done b)) ∧
    (rem ≠ 0 →
      step ⟨a, b, rem, bump⟩ = some (.Continue ⟨b, a + b, rem - 1, bump⟩) ∧
      rem - 1 + 1 = rem) := by
  refine ⟨fun h0 => step_done _ h0, fun h0 => ⟨step_continue _ h0 hov, ?_⟩⟩
  omega

/-- C2 witness: the step transition at the concrete state `(3, 5, 2)`. -/
theorem C2_step_transition_witness :
    (3 : Nat) + 5 < 2 ^ 64 ∧
    (step ⟨3, 5, 2, 7⟩ = some (.Continue ⟨5, 8, 1, 7⟩) ∧ 2 - 1 + 1 = 2) :=
  ⟨by decide,
   (C2_step_transition 3 5 2 7 (by decide) (by decide) (by decide) (by decide)).2
     (by decide)⟩

/-- C9: the CreateAccount funding amount is the pure formula
`(128 + DATA_LEN) * 3480 * 2` with `DATA_LEN = 25`, equal to 1064880, and the
allocation request payload carries exactly that u64 amount. -/
theorem C9_rent_formula :
    DATA_LEN = 25 ∧
    rent_minimum DATA_LEN = (128 + DATA_LEN) * 3480 * 2 ∧
    rent_minimum DATA_LEN = 1064880 ∧
    create_account_ix_data (rent_minimum DATA_LEN) DATA_LEN (List.replicate 32 0) =
      leBytes 4 0 ++ leBytes 8 1064880 ++ leBytes 8 25 ++ List.replicate 32 0 := by
  decide

/-- C3 (amended): the invocation mode is selected by storage presence, not by
the payload. Absent storage selects init mode, where a payload shorter than
8 bytes is rejected and otherwise the first 8 bytes are parsed as a
little-endian u64 step count; present storage selects resume mode, whose
result does not depend on the payload at all. -/
theorem C3_mode_by_storage :
    (∀ inv : Invocation, inv.pdaData = [] → inv.payload.length < 8 →
      process_instruction inv = .error .needN) ∧
    (∀ inv : Invocation, inv.pdaData = [] → 8 ≤ inv.payload.length →
      inv.payerIsSigner = true → inv.systemKeyOk = true →
      inv.pdaKey = inv.expectedPda →
      process_instruction inv =
        .ok { newData := encodeState
                ⟨0, 1, leDecode (inv.payload.take 8), inv.expectedBump⟩,
              allocated := true, wrote := true,
              selfCpi := decide (0 < leDecode (inv.payload.take 8)),
              reported := none }) ∧
    (∀ invA invB : Invocation, invA.pdaData = invB.pdaData → invA.pdaData ≠ [] →
      process_instruction invA = process_instruction invB) := by
  refine ⟨?_, ?_, ?_⟩
  · intro inv hd hlen
    simp [process_instruction, hd, hlen]
  · intro inv hd hlen hs hsys hk
    exact process_init_ok inv hd hlen hs hsys hk
  · intro invA invB hdd hne
    have hB : invB.pdaData.isEmpty = false := by
      rw [← hdd]
      rcases hA : invA.pdaData with _ | ⟨x, xs⟩
      · exact absurd hA hne
      · rfl
    unfold process_instruction
    rw [hdd, hB]
    simp

/-- C3 witness: init-mode rejection of a short payload at a concrete input,
and a concrete init-mode success. -/
theorem C3_mode_by_storage_witness :
    process_instruction ⟨[1, 2, 3], true, true, 0, 0, 5, []⟩ = .error .needN ∧
    process_instruction ⟨leBytes 8 2, true, true, 4, 4, 5, []⟩ =
      .ok { newData := encodeState ⟨0, 1, leDecode ((leBytes 8 2).take 8), 5⟩,
            allocated := true, wrote := true,
            selfCpi := decide (0 < leDecode ((leBytes 8 2).take 8)),
            reported := none } :=
  ⟨C3_mode_by_storage.1 ⟨[1, 2, 3], true, true, 0, 0, 5, []⟩ rfl (by decide),
   C3_mode_by_storage.2.1 ⟨leBytes 8 2, true, true, 4, 4, 5, []⟩ rfl (by decide)
     rfl rfl rfl⟩

/-- C3 counterexample: an invocation whose payload is 1 byte long — shorter
than 8 bytes and non-empty — is not rejected when the storage record is
present: the program runs resume mode and succeeds, contradicting the claim
that every payload shorter than 8 bytes is rejected regardless of other
inputs, and that a non-empty payload selects init mode. -/
theorem C3_counterexample :
    process_instruction ⟨[7], true, true, 0, 0, 0, encodeState ⟨0, 1, 0, 0⟩⟩ =
      .ok { newData := encodeState ⟨0, 1, 0, 0⟩, allocated := false,
            wrote := false, selfCpi := false, reported := some 1 } := by
  rfl

/-- C4: on the init (storage-absent) branch every validation failure —
payload shorter than 8 bytes, non-signing payer, wrong system program, or a
caller-supplied PDA key different from the derived one — aborts the
invocation with an error; an `Except.error` carries no `Effects`, so nothing
is allocated, written or invoked. In particular a non-derived address is
rejected unconditionally. -/
theorem C4_init_validation :
    ∀ inv : Invocation, inv.pdaData = [] →
      ((inv.payload.length < 8 ∨ inv.payerIsSigner = false ∨
        inv.systemKeyOk = false ∨ inv.pdaKey ≠ inv.expectedPda) →
        ∃ e, process_instruction inv = .error e) ∧
      (inv.pdaKey ≠ inv.expectedPda → ∀ eff, process_instruction inv ≠ .ok eff) := by
  intro inv hd
  constructor
  · intro hbad
    unfold process_instruction
    rw [hd]
    by_cases hlen : inv.payload.length < 8
    · exact ⟨.needN, by simp [hlen]⟩
    · cases hsig : inv.payerIsSigner
      · exact ⟨.payerNotSigner, by simp [hlen, hsig]⟩
      · cases hsys : inv.systemKeyOk
        · exact ⟨.badSystemProgram, by simp [hlen, hsig, hsys]⟩
        · have hk : inv.pdaKey ≠ inv.expectedPda := by
            rcases hbad with h | h | h | h
            · exact absurd h hlen
            · rw [hsig] at h; cases h
            · rw [hsys] at h; cases h
            · exact h
          exact ⟨.wrongPda, by simp [hlen, hsig, hsys, hk]⟩
  · intro hk eff
    unfold process_instruction
    rw [hd]
    by_cases hlen : inv.payload.length < 8
    · simp [hlen]
    · cases hsig : inv.payerIsSigner
      · simp [hlen]
      · cases hsys : inv.systemKeyOk
        · simp [hlen]
        · simp [hlen, hk]

/-- C4 witness: an init invocation naming a PDA key different from the
derived one is rejected. -/
theorem C4_init_validation_witness :
    (∃ e, process_instruction ⟨[1, 2, 3], true, true, 1, 2, 0, []⟩ = .error e) ∧
    (∀ eff, process_instruction ⟨[1, 2, 3], true, true, 1, 2, 0, []⟩ ≠ .ok eff) :=
  ⟨(C4_init_validation ⟨[1, 2, 3], true, true, 1, 2, 0, []⟩ rfl).1
     (Or.inl (by decide)),
   (C4_init_validation ⟨[1, 2, 3], true, true, 1, 2, 0, []⟩ rfl).2 (by decide)⟩

/-- C5: once `remaining = 0` the record is terminal and immutable — any
invocation that finds such a record leaves the stored bytes unchanged
(`newData` equals the old data, `wrote = false`), reports the stored `b` as
the final value, issues no allocation and no further self-invocation. -/
theorem C5_terminal_idempotent :
    ∀ (inv : Invocation) (s : FibState), ValidState s → s.remaining = 0 →
      inv.pdaData = encodeState s →
      process_instruction inv =
        .ok { newData := encodeState s, allocated := false, wrote := false,
              selfCpi := false, reported := some s.b } :=
  fun inv s hv h0 hd => process_resume_done inv s hv h0 hd

/-- C5 witness: a resume attempt on the concrete terminal record
`(3, 5, 0, bump 9)`, with a non-empty payload and no signer, still changes
nothing and reports 5. -/
theorem C5_terminal_idempotent_witness :
    ValidState ⟨3, 5, 0, 9⟩ ∧
    process_instruction ⟨[9, 9], false, false, 4, 7, 1, encodeState ⟨3, 5, 0, 9⟩⟩ =
      .ok { newData := encodeState ⟨3, 5, 0, 9⟩, allocated := false,
            wrote := false, selfCpi := false, reported := some 5 } :=
  ⟨by decide,
   C5_terminal_idempotent ⟨[9, 9], false, false, 4, 7, 1, encodeState ⟨3, 5, 0, 9⟩⟩
     ⟨3, 5, 0, 9⟩ (by decide) rfl rfl⟩

/-- C6: a whole initiating transaction for step count `n` — the init call at
stack height 1 plus the nested self-CPI continuations, under the platform's
ceiling of `MAX_STACK_HEIGHT = 5` — commits the terminal record
`(fib n, fib (n+1), 0)` when `n ≤ 4` (at most 4 nested continuations) and
fails wholesale with `depthExceeded`, persisting nothing, when `5 ≤ n`. -/
theorem C6_depth_boundary :
    ∀ n bump : Nat, n < 2 ^ 64 → bump < 256 →
      (n ≤ 4 →
        initTx n bump = .ok (encodeState ⟨Nat.fib n, Nat.fib (n + 1), 0, bump⟩)) ∧
      (5 ≤ n → initTx n bump = .error .depthExceeded) := by
  intro n bump hn hb
  constructor
  · intro h4
    by_cases hn0 : n = 0
    · subst hn0
      unfold initTx
      rw [process_init_initInv 0 bump hn]
      show (if decide (0 < 0) = true then
          resumeChain (MAX_STACK_HEIGHT - 2) (encodeState ⟨0, 1, 0, bump⟩)
        else Except.ok (encodeState ⟨0, 1, 0, bump⟩)) = _
      rw [if_neg (by decide)]
      rfl
    · have hfib : Nat.fib (0 + n + 1) < 2 ^ 64 := by
        have hle : Nat.fib (0 + n + 1) ≤ Nat.fib 5 := Nat.fib_mono (by omega)
        have h64 : Nat.fib 5 < 2 ^ 64 := by decide
        omega
      have hchain := resumeChain_fib n 3 0 bump (by omega) hn hb hfib
      rw [Nat.fib_zero, Nat.fib_one, Nat.zero_add] at hchain
      have hpos : decide (0 < n) = true := by
        simp [Nat.pos_of_ne_zero hn0]
      unfold initTx
      rw [process_init_initInv n bump hn]
      show (if decide (0 < n) = true then
          resumeChain (MAX_STACK_HEIGHT - 2) (encodeState ⟨0, 1, n, bump⟩)
        else Except.ok (encodeState ⟨0, 1, n, bump⟩)) = _
      rw [if_pos hpos]
      exact hchain
  · intro h5
    have hfib : Nat.fib (0 + 3 + 2) < 2 ^ 64 := by decide
    have hchain := resumeChain_depth 3 0 n bump (by omega) hn hb hfib
    rw [Nat.fib_zero, Nat.fib_one] at hchain
    have hpos : decide (0 < n) = true := by simp; omega
    unfold initTx
    rw [process_init_initInv n bump hn]
    show (if decide (0 < n) = true then
        resumeChain (MAX_STACK_HEIGHT - 2) (encodeState ⟨0, 1, n, bump⟩)
      else Except.ok (encodeState ⟨0, 1, n, bump⟩)) = _
    rw [if_pos hpos]
    exact hchain

/-- C6 witness: the boundary instances from the integration tests — `n = 4`
(4 continuations) commits the record `(3, 5, 0)`, `n = 5` (5 continuations)
fails the whole transaction. -/
theorem C6_depth_boundary_witness :
    ((4 : Nat) ≤ 4 ∧
      initTx 4 9 = .ok (encodeState ⟨Nat.fib 4, Nat.fib (4 + 1), 0, 9⟩)) ∧
    ((5 : Nat) ≤ 5 ∧ initTx 5 9 = .error .depthExceeded) :=
  ⟨⟨by decide, (C6_depth_boundary 4 9 (by decide) (by decide)).1 (by decide)⟩,
   ⟨by decide, (C6_depth_boundary 5 9 (by decide) (by decide)).2 (by decide)⟩⟩

/-- C7: the State Codec uses the fixed little-endian layout
bytes [0:8) = a, [8:16) = b, [16:24) = remaining, [24] = discriminator in a
25-byte record; `decode (encode s) = s` for every valid state, and decode
succeeds on every byte slice of length 25 with no content validation. -/
theorem C7_codec_roundtrip :
    (∀ s : FibState, ValidState s →
      (encodeState s).length = 25 ∧
      (encodeState s).take 8 = leBytes 8 s.a ∧
      ((encodeState s).drop 8).take 8 = leBytes 8 s.b ∧
      ((encodeState s).drop 16).take 8 = leBytes 8 s.remaining ∧
      (encodeState s).getD 24 0 = s.bump ∧
      decodeState (encodeState s) = some s) ∧
    (∀ bs : List Nat, bs.length = 25 → (decodeState bs).isSome = true) := by
  constructor
  · intro s hv
    exact ⟨encodeState_length s, encodeState_take_a s, encodeState_take_b s,
           encodeState_take_rem s, encodeState_getD24 s, decode_encode s hv⟩
  · intro bs hlen
    simp [decodeState, hlen]

/-- C7 witness: round-trip at the concrete state `(1, 2, 3, bump 4)` and
decode success on an arbitrary 25-byte slice of zeros. -/
theorem C7_codec_roundtrip_witness :
    ValidState ⟨1, 2, 3, 4⟩ ∧
    decodeState (encodeState ⟨1, 2, 3, 4⟩) = some ⟨1, 2, 3, 4⟩ ∧
    (decodeState (List.replicate 25 0)).isSome = true :=
  ⟨by decide,
   (C7_codec_roundtrip.1 ⟨1, 2, 3, 4⟩ (by decide)).2.2.2.2.2,
   C7_codec_roundtrip.2 (List.replicate 25 0) (by decide)⟩

/-- C8: overflow of the 64-bit addition `a + b` in the step branch is
checked, not wrapped: whenever the stored sum would exceed `u64::MAX` the
invocation aborts with the overflow error, and no success (hence no write of
a wrapped value) is possible. -/
theorem C8_overflow_checked :
    ∀ (inv : Invocation) (s : FibState), ValidState s → s.remaining ≠ 0 →
      2 ^ 64 ≤ s.a + s.b → inv.pdaData = encodeState s →
      process_instruction inv = .error .overflow ∧
      ∀ eff, process_instruction inv ≠ .ok eff := by
  intro inv s hv h0 hov hd
  have h := process_resume_overflow inv s hv h0 hov hd
  refine ⟨h, fun eff hc => ?_⟩
  rw [h] at hc
  cases hc

/-- C8 witness: the concrete state `(2^63, 2^63, 1)` overflows the u64 sum
and aborts. -/
theorem C8_overflow_checked_witness :
    2 ^ 64 ≤ 2 ^ 63 + 2 ^ 63 ∧
    process_instruction (resumeInv (encodeState ⟨2 ^ 63, 2 ^ 63, 1, 0⟩)) =
      .error .overflow :=
  ⟨by decide,
   (C8_overflow_checked (resumeInv (encodeState ⟨2 ^ 63, 2 ^ 63, 1, 0⟩))
      ⟨2 ^ 63, 2 ^ 63, 1, 0⟩ (by decide) (by decide) (by decide) rfl).1⟩

/-- C10: each invocation requests a self-invocation iff the `remaining` it
just stored is positive — the init branch iff the supplied `n > 0`, the step
branch iff the decremented count is still positive (so the invocation whose
write sets `remaining` to 0 does not self-invoke) — and the terminal branch
(fresh resume on a `remaining = 0` record) never self-invokes. -/
theorem C10_selfCpi_iff :
    (∀ n bump : Nat, n < 2 ^ 64 →
      process_instruction (initInv n bump) =
        .ok { newData := encodeState ⟨0, 1, n, bump⟩, allocated := true,
              wrote := true, selfCpi := decide (0 < n), reported := none }) ∧
    (∀ (inv : Invocation) (s : FibState), ValidState s → s.remaining ≠ 0 →
      s.a + s.b < 2 ^ 64 → inv.pdaData = encodeState s →
      process_instruction inv =
        .ok { newData := encodeState ⟨s.b, s.a + s.b, s.remaining - 1, s.bump⟩,
              allocated := false, wrote := true,
              selfCpi := decide (0 < s.remaining - 1),
              reported := if s.remaining - 1 = 0 then some (s.a + s.b) else none }) ∧
    (∀ (inv : Invocation) (s : FibState), ValidState s → s.remaining = 0 →
      inv.pdaData = encodeState s →
      process_instruction inv =
        .ok { newData := encodeState s, allocated := false, wrote := false,
              selfCpi := false, reported := some s.b }) := by
  refine ⟨?_, ?_, ?_⟩
  · intro n bump hn
    exact process_init_initInv n bump hn
  · intro inv s hv h0 hov hd
    exact process_resume_step inv s hv h0 hov hd
  · intro inv s hv h0 hd
    exact process_resume_done inv s hv h0 hd

/-- C10 witness: `n = 0` init stores `remaining = 0` and does not
self-invoke; a resume on `remaining = 1` writes `remaining = 0` and does not
self-invoke either. -/
theorem C10_selfCpi_iff_witness :
    process_instruction (initInv 0 3) =
      .ok { newData := encodeState ⟨0, 1, 0, 3⟩, allocated := true,
            wrote := true, selfCpi := false, reported := none } ∧
    process_instruction (resumeInv (encodeState ⟨0, 1, 1, 3⟩)) =
      .ok { newData := encodeState ⟨1, 1, 0, 3⟩, allocated := false,
            wrote := true, selfCpi := false, reported := some 1 } := by
  constructor
  · have h := C10_selfCpi_iff.1 0 3 (by decide)
    rw [h]
    rfl
  · have h := C10_selfCpi_iff.2.1 (resumeInv (encodeState ⟨0, 1, 1, 3⟩))
      ⟨0, 1, 1, 3⟩ (by decide) (by decide) (by decide) rfl
    rw [h]
    rfl

end FibCpi
